import Mathlib

/-!
# Verification of the borgstore-based key-value repository (`src/borg/repository3.py`)

This file gives a shallow embedding of the `Repository3` class and of the
parts of its environment that its operations use, and proves or refutes the
frozen claims about it.

Modelling choices, each justified next to its definition:

* Object ids (`Key`) are byte lists; payloads (`Bytes`) are byte lists.
  Bytes are `Fin 256`.
* `bin_to_hex` / `hex_to_bin` (from `helpers`, not under `src/`) translate a
  byte string to the list of its hex digits and back; we model a hex string
  as a `List (Fin 16)`.
* The borgstore `Store` (an external dependency, not under `src/`) is a
  persistent on-disk key-value store.  `Repository3` keeps all claim-relevant
  objects under the `data/` namespace, keyed by `"data/" + bin_to_hex(id)`;
  we model the `data/` namespace of the store as an association list from
  hex names to payloads, in which `store` overwrites or appends, `load`
  looks up, `delete` removes, and `list` returns the names in a
  deterministic (storage) order.  The association list *is* the durable
  on-disk state: borgstore writes through to disk on every `store`/`delete`,
  and a later `open` of the repository reads exactly this state.
-/

/-- A byte. -/
abbrev Byte := Fin 256

/-- A byte string: an object payload. -/
abbrev Bytes := List Byte

/-- An object id (the repository uses 32-byte ids; the length plays no role
in any claim, so it is not constrained here). -/
abbrev Key := List Byte

/-- A hex digit. -/
abbrev HexDigit := Fin 16

/-- A store object name: a hex string, modelled as its list of hex digits. -/
abbrev Name := List HexDigit

/-- The two hex digits of one byte, high digit first. -/
def byteToHex (b : Byte) : List HexDigit :=
  [⟨b.val / 16, Nat.div_lt_of_lt_mul b.isLt⟩, ⟨b.val % 16, Nat.mod_lt _ (by norm_num)⟩]

/-- Function `helpers.bin_to_hex` (helpers.py is not under `src/`): the hex string of
a byte string, two digits per byte. -/
def bin_to_hex : Bytes → Name
  | [] => []
  | b :: bs => byteToHex b ++ bin_to_hex bs

/-- Function `helpers.hex_to_bin` (helpers.py is not under `src/`): decode a hex
string, two digits per byte. -/
def hex_to_bin : Name → Bytes
  | hi :: lo :: rest => ⟨16 * hi.val + lo.val, by omega⟩ :: hex_to_bin rest
  | _ => []

theorem hex_to_bin_bin_to_hex (bs : Bytes) : hex_to_bin (bin_to_hex bs) = bs := by
  induction bs with
  | nil => rfl
  | cons b bs ih =>
    simp only [bin_to_hex, byteToHex, List.cons_append, List.nil_append, hex_to_bin, ih]
    congr 1
    exact Fin.ext (Nat.div_add_mod b.val 16)

theorem bin_to_hex_injective : Function.Injective bin_to_hex :=
  Function.LeftInverse.injective hex_to_bin_bin_to_hex

theorem bin_to_hex_length (bs : Bytes) : (bin_to_hex bs).length = 2 * bs.length := by
  induction bs with
  | nil => rfl
  | cons b bs ih => simp [bin_to_hex, byteToHex, ih]; omega

theorem bin_to_hex_length_even (bs : Bytes) : (bin_to_hex bs).length % 2 = 0 := by
  simp [bin_to_hex_length]

/-- Decoding `hex_to_bin` is injective on even-length hex strings (all names the
repository ever stores have even length). -/
theorem hex_to_bin_injOn_even :
    ∀ n m : Name, n.length % 2 = 0 → m.length % 2 = 0 →
      hex_to_bin n = hex_to_bin m → n = m
  | [], [], _, _, _ => rfl
  | [], _ :: _ :: _, _, _, h => by simp [hex_to_bin] at h
  | [], [_], _, hm, _ => by simp at hm
  | [_], _, hn, _, _ => by simp at hn
  | _ :: _ :: _, [], _, _, h => by simp [hex_to_bin] at h
  | _ :: _ :: _, [_], _, hm, _ => by simp at hm
  | hi :: lo :: rest, hi' :: lo' :: rest', hn, hm, h => by
    simp only [hex_to_bin, List.cons.injEq] at h
    obtain ⟨h1, h2⟩ := h
    have h1 : 16 * hi.val + lo.val = 16 * hi'.val + lo'.val := congrArg Fin.val h1
    have hhi : hi.val = hi'.val := by have := lo.isLt; have := lo'.isLt; omega
    have hlo : lo.val = lo'.val := by omega
    simp only [List.length_cons] at hn hm
    have := hex_to_bin_injOn_even rest rest' (by omega) (by omega) h2
    simp [Fin.ext hhi, Fin.ext hlo, this]

/-! ## The borgstore `Store`, `data/` namespace

Modelled from the spec: borgstore is "a Store with flat config storage and
2-levels-nested data storage"; it persists every `store`/`delete`
immediately, `load` of an absent name and `delete` of an absent name raise
`ObjectNotFound` (imported as `StoreObjectNotFound`), and `list` of the
`data` namespace returns the stored object names in a deterministic order
on an unchanged store.  Only the `data/` namespace is modelled: the
`config/` entries written at `create` take no part in any claim. -/

/-- The data namespace of the on-disk borgstore store: an association
list from object name to payload. -/
abbrev Store := List (Name × Bytes)

/-- The store of a freshly created (empty) repository. -/
def emptyStore : Store := []

/-- Look up the payload stored under a name. -/
def lookupName (n : Name) : Store → Option Bytes
  | [] => none
  | (m, w) :: rest => if m = n then some w else lookupName n rest

/-- Store a payload under a name: overwrite in place if present, else
append. -/
def setName (n : Name) (v : Bytes) : Store → Store
  | [] => [(n, v)]
  | (m, w) :: rest => if m = n then (n, v) :: rest else (m, w) :: setName n v rest

/-- Remove the entry stored under a name (first occurrence). -/
def removeName (n : Name) : Store → Store
  | [] => []
  | (m, w) :: rest => if m = n then rest else (m, w) :: removeName n rest

/-- The names currently present in a store, in storage order. -/
def storeNames (s : Store) : List Name := s.map Prod.fst

/-- A well-formed store has pairwise distinct names (it is a filesystem
directory: one file per name). -/
def nodupNames (s : Store) : Prop := (storeNames s).Nodup

instance (s : Store) : Decidable (nodupNames s) := by
  unfold nodupNames; infer_instance

/-- In a store written by `Repository3`, every name is the hex string of a
byte string, hence of even length. -/
def evenNames (s : Store) : Prop := ∀ n ∈ storeNames s, n.length % 2 = 0

instance (s : Store) : Decidable (evenNames s) := by
  unfold evenNames; infer_instance

/-! ### Association-list lemmas -/

theorem lookupName_setName_self (n : Name) (v : Bytes) (s : Store) :
    lookupName n (setName n v s) = some v := by
  induction s with
  | nil => simp [setName, lookupName]
  | cons p rest ih =>
    obtain ⟨m, w⟩ := p
    by_cases h : m = n <;> simp [setName, lookupName, h, ih]

theorem lookupName_setName_ne (n n' : Name) (v : Bytes) (s : Store) (h : n' ≠ n) :
    lookupName n' (setName n v s) = lookupName n' s := by
  induction s with
  | nil => simp [setName, lookupName, Ne.symm h]
  | cons p rest ih =>
    obtain ⟨m, w⟩ := p
    by_cases hm : m = n
    · subst hm
      simp [setName, lookupName, Ne.symm h]
    · simp only [setName, if_neg hm, lookupName]
      by_cases hm' : m = n' <;> simp [hm', ih]

theorem storeNames_setName (n : Name) (v : Bytes) (s : Store) :
    storeNames (setName n v s) =
      if n ∈ storeNames s then storeNames s else storeNames s ++ [n] := by
  induction s with
  | nil => simp [setName, storeNames]
  | cons p rest ih =>
    obtain ⟨m, w⟩ := p
    by_cases h : m = n
    · subst h
      simp [setName, storeNames]
    · simp only [setName, if_neg h, storeNames, List.map_cons] at ih ⊢
      by_cases hmem : n ∈ List.map Prod.fst rest <;>
        simp [hmem, Ne.symm h, ih]

theorem mem_storeNames_setName (n n' : Name) (v : Bytes) (s : Store) :
    n' ∈ storeNames (setName n v s) ↔ n' ∈ storeNames s ∨ n' = n := by
  rw [storeNames_setName]
  by_cases h : n ∈ storeNames s
  · simp only [if_pos h]
    constructor
    · exact Or.inl
    · rintro (hm | rfl) <;> [exact hm; exact h]
  · simp [if_neg h]

theorem nodupNames_setName (n : Name) (v : Bytes) (s : Store) (h : nodupNames s) :
    nodupNames (setName n v s) := by
  unfold nodupNames at h ⊢
  rw [storeNames_setName]
  by_cases hmem : n ∈ storeNames s
  · simpa [hmem]
  · simpa [hmem, List.nodup_append] using h

theorem evenNames_setName (n : Name) (v : Bytes) (s : Store)
    (h : evenNames s) (hn : n.length % 2 = 0) : evenNames (setName n v s) := by
  intro n' hn'
  rcases (mem_storeNames_setName n n' v s).mp hn' with hm | rfl
  · exact h n' hm
  · exact hn

theorem storeNames_removeName (n : Name) (s : Store) (h : nodupNames s) :
    storeNames (removeName n s) = (storeNames s).filter (fun m => m ≠ n) := by
  induction s with
  | nil => simp [removeName, storeNames]
  | cons p rest ih =>
    obtain ⟨m, w⟩ := p
    unfold nodupNames storeNames at h
    simp only [List.map_cons, List.nodup_cons] at h
    by_cases hm : m = n
    · subst hm
      have hne : ∀ x ∈ List.map Prod.fst rest, x ≠ m := fun x hx hxm => h.1 (hxm ▸ hx)
      have hf : List.filter (fun x => !decide (x = m)) (List.map Prod.fst rest)
          = List.map Prod.fst rest :=
        List.filter_eq_self.mpr (fun a ha => by simp [hne a ha])
      simp [removeName, storeNames, List.filter_cons, hf]
    · simp only [removeName, if_neg hm, storeNames, List.map_cons, List.filter_cons]
      rw [if_pos (by simpa using hm)]
      have := ih h.2
      unfold storeNames at this
      simp [this]

theorem nodupNames_removeName (n : Name) (s : Store) (h : nodupNames s) :
    nodupNames (removeName n s) := by
  unfold nodupNames
  rw [storeNames_removeName n s h]
  exact List.Nodup.filter _ h

theorem evenNames_removeName (n : Name) (s : Store) (hnd : nodupNames s)
    (h : evenNames s) : evenNames (removeName n s) := by
  intro n' hn'
  rw [storeNames_removeName n s hnd] at hn'
  exact h n' (List.mem_of_mem_filter hn')

theorem lookupName_isSome_iff_mem (n : Name) (s : Store) :
    (lookupName n s).isSome ↔ n ∈ storeNames s := by
  induction s with
  | nil => simp [lookupName, storeNames]
  | cons p rest ih =>
    obtain ⟨m, w⟩ := p
    by_cases h : m = n <;> simp [lookupName, storeNames, h, ih] <;> tauto

theorem lookupName_removeName_self (n : Name) (s : Store) (h : nodupNames s) :
    lookupName n (removeName n s) = none := by
  have : ¬ n ∈ storeNames (removeName n s) := by
    rw [storeNames_removeName n s h]
    simp
  rw [← Option.not_isSome_iff_eq_none]
  intro hs
  exact this ((lookupName_isSome_iff_mem _ _).mp hs)

theorem lookupName_removeName_ne (n n' : Name) (s : Store) (h : n' ≠ n) :
    lookupName n' (removeName n s) = lookupName n' s := by
  induction s with
  | nil => simp [removeName]
  | cons p rest ih =>
    obtain ⟨m, w⟩ := p
    by_cases hm : m = n
    · subst hm
      simp [removeName, lookupName, Ne.symm h]
    · simp only [removeName, if_neg hm, lookupName]
      by_cases hm' : m = n' <;> simp [hm', ih]

/-! ## `Repository3` (src/borg/repository3.py)

The class keeps no claim-relevant in-memory state: every operation goes
straight to the borgstore store.  Its state is therefore the `Store`.
Errors are the exceptions the Python methods can raise on the modelled
paths. -/

/-- The exceptions raised by the modelled `Repository3` paths.
`objectNotFound` is `Repository3.ObjectNotFound` (it also carries the repo
path in Python, which is constant and omitted); `integrityError` is
`helpers.IntegrityError`; `valueError` is the Python `ValueError` raised by
`list.index` on a missing element; `attributeError` is the Python
`AttributeError` raised when a method that the class does not define is
called. -/
inductive RepoError
  | objectNotFound (id : Key)
  | integrityError
  | valueError
  | attributeError
  deriving DecidableEq, Repr

/-- Modelled from the spec: `MAX_DATA_SIZE`, "per-payload upper bound
enforced by the engine", is a constant imported from `constants` (not under
`src/`); the spec fixes no numeric value and no theorem below depends on
it, so the value of the project it was written for is used. -/
def MAX_DATA_SIZE : Nat := 20971479

namespace Repository3

/-- Method `Repository3.put` (repository3.py lines 274-285): reject a payload
larger than `MAX_DATA_SIZE` with an `IntegrityError` before anything is
written, else store the payload under `"data/" + bin_to_hex(id)`. -/
def put (repo : Store) (id : Key) (data : Bytes) : Except RepoError Store :=
  if data.length > MAX_DATA_SIZE then .error .integrityError
  else .ok (setName (bin_to_hex id) data repo)

/-- Method `Repository3.get` (repository3.py lines 237-267), `read_data=True` path
(the default; the `read_data=False` partial-metadata path is used by no
claim): load `"data/" + bin_to_hex(id)`, turning the store's
`ObjectNotFound` into `Repository3.ObjectNotFound`. -/
def get (repo : Store) (id : Key) : Except RepoError Bytes :=
  match lookupName (bin_to_hex id) repo with
  | some data => .ok data
  | none => .error (.objectNotFound id)

/-- Method `Repository3.delete` (repository3.py lines 287-297): delete
`"data/" + bin_to_hex(id)` from the store, turning the store's
`ObjectNotFound` into `Repository3.ObjectNotFound`. -/
def delete (repo : Store) (id : Key) : Except RepoError Store :=
  match lookupName (bin_to_hex id) repo with
  | some _ => .ok (removeName (bin_to_hex id) repo)
  | none => .error (.objectNotFound id)

/-- Method `Repository3.commit` (repository3.py lines 183-184): the body is
`pass`; the store is returned unchanged and nothing is written. -/
def commit (repo : Store) : Store := repo

/-- Method `Repository3.check` (repository3.py lines 186-196): the body only logs
two messages and returns `True` (for any `repair` / `max_duration`). -/
def check (repo : Store) (repair : Bool) : Bool × Store := (true, repo)

/-- First index of an element in a list (`list.index` in Python returns
the index of the first occurrence, `none` standing for the raised
`ValueError`). -/
def indexOf? [DecidableEq α] (x : α) : List α → Option Nat
  | [] => none
  | y :: ys => if y = x then some 0 else (indexOf? x ys).map (· + 1)

/-- The ids `Repository3.list` derives from the store listing:
`hex_to_bin` of each stored name, in storage order. -/
def repoIds (repo : Store) : List Key := (storeNames repo).map hex_to_bin

/-- Python slicing `ids[:limit] if limit is not None else ids` — the final slicing of
`Repository3.list`. -/
def truncateTo (limit : Option Nat) (ids : List Key) : List Key :=
  match limit with
  | some l => ids.take l
  | none => ids

/-- Method `Repository3.list` (repository3.py lines 207-220): list the ids of the
`data` namespace; when a `marker` is given, keep only the ids strictly
after its first occurrence (`ids.index(marker)` raises `ValueError` if the
marker is absent); when a `limit` is given, return only the first `limit`
ids.  The unused `mask`/`value` parameters are ignored by the body and
omitted. -/
def list (repo : Store) (limit : Option Nat) (marker : Option Key) :
    Except RepoError (List Key) :=
  let ids := repoIds repo
  match marker with
  | none => .ok (truncateTo limit ids)
  | some m =>
    match indexOf? m ids with
    | none => .error .valueError
    | some idx => .ok (truncateTo limit (ids.drop (idx + 1)))

/-- Method `Repository3.scan` (repository3.py lines 223-235): call `list` with the
`state` as marker; the returned state is the last returned id
(`ids[-1] if ids else None`). -/
def scan (repo : Store) (limit : Option Nat) (state : Option Key) :
    Except RepoError (List Key × Option Key) :=
  match list repo limit state with
  | .ok ids => .ok (ids, ids.getLast?)
  | .error e => .error e

end Repository3

/-! ## Sequences of client operations

The claims quantify over sequences of `put`/`delete`/`commit` (and, for the
rollback claim, `rollback`).  `Repository3` defines no `rollback` method at
all, so calling one on it raises a Python `AttributeError`. -/

/-- One client operation. -/
inductive Op
  | put (id : Key) (data : Bytes)
  | delete (id : Key)
  | commit
  | rollback
  deriving DecidableEq, Repr

/-- Run one operation against the repository. -/
def execOp (repo : Store) : Op → Except RepoError Store
  | .put id data => Repository3.put repo id data
  | .delete id => Repository3.delete repo id
  | .commit => .ok (Repository3.commit repo)
  | .rollback => .error .attributeError

/-- Run a sequence of operations; the first exception aborts the run. -/
def run (repo : Store) : List Op → Except RepoError Store
  | [] => .ok repo
  | op :: ops =>
    match execOp repo op with
    | .ok repo' => run repo' ops
    | .error e => .error e

/-- Spec-side definition (the words of claim C1): the keys "that were put
and not subsequently deleted in that sequence", accumulated left to right
starting from the keys in `acc`. -/
def putNotDeleted (acc : List Key) : List Op → List Key
  | [] => acc
  | .put id _ :: ops => putNotDeleted (if id ∈ acc then acc else acc ++ [id]) ops
  | .delete id :: ops => putNotDeleted (acc.filter (fun k => k ≠ id)) ops
  | .commit :: ops => putNotDeleted acc ops
  | .rollback :: ops => putNotDeleted acc ops

/-- Spec-side definition (the words of claim C10): repeatedly chain
`scan`, feeding the returned state into the next call, collecting the ids;
stop on an empty result, an error, or when out of fuel. -/
def scanChain (repo : Store) (limit : Option Nat) (state : Option Key) :
    Nat → List Key
  | 0 => []
  | fuel + 1 =>
    match Repository3.scan repo limit state with
    | .ok (ids, state') => if ids.isEmpty then [] else ids ++ scanChain repo limit state' fuel
    | .error _ => []

/-! ## Concrete inputs for witnesses and counterexamples

`H0` is the key the spec calls `H(0)`: 32 bytes, all zero (the big-endian
u32 of 0 followed by zeros). -/

/-- The 32-byte key `H(0)`. -/
def H0 : Key := List.replicate 32 0

/-- The payload b"foo". -/
def fooB : Bytes := [102, 111, 111]

/-- The payload b"bar". -/
def barB : Bytes := [98, 97, 114]

/-- A payload one byte longer than `MAX_DATA_SIZE`. -/
def oversized : Bytes := List.replicate (MAX_DATA_SIZE + 1) 0

/-- A one-object store used as a concrete repository state. -/
def oneObjStore : Store := [([0, 0], [1])]

/-! ## Helper lemmas on the operations -/

theorem put_ok (s : Store) (id : Key) (data : Bytes)
    (h : ¬ data.length > MAX_DATA_SIZE) :
    Repository3.put s id data = .ok (setName (bin_to_hex id) data s) := by
  simp [Repository3.put, h]

theorem put_ok_inv (s s' : Store) (id : Key) (data : Bytes)
    (h : Repository3.put s id data = .ok s') :
    s' = setName (bin_to_hex id) data s := by
  unfold Repository3.put at h
  by_cases hsz : data.length > MAX_DATA_SIZE
  · rw [if_pos hsz] at h
    cases h
  · rw [if_neg hsz] at h
    cases h
    rfl

theorem get_of_lookup (s : Store) (id : Key) (v : Bytes)
    (h : lookupName (bin_to_hex id) s = some v) :
    Repository3.get s id = .ok v := by
  simp [Repository3.get, h]

theorem delete_ok_inv (s s' : Store) (id : Key)
    (h : Repository3.delete s id = .ok s') :
    s' = removeName (bin_to_hex id) s := by
  unfold Repository3.delete at h
  cases hl : lookupName (bin_to_hex id) s with
  | none =>
    rw [hl] at h
    cases h
  | some v =>
    rw [hl] at h
    cases h
    rfl

theorem indexOf?_eq_none_iff [DecidableEq α] (x : α) (l : List α) :
    Repository3.indexOf? x l = none ↔ x ∉ l := by
  induction l with
  | nil => simp [Repository3.indexOf?]
  | cons y ys ih =>
    by_cases h : y = x
    · simp [Repository3.indexOf?, h]
    · simp only [Repository3.indexOf?, if_neg h, List.mem_cons]
      cases hys : Repository3.indexOf? x ys <;>
        simp [hys, Ne.symm h] at ih ⊢ <;> tauto

theorem indexOf?_get [DecidableEq α] (l : List α) (hnd : l.Nodup) :
    ∀ (i : Nat) (hi : i < l.length), Repository3.indexOf? (l.get ⟨i, hi⟩) l = some i := by
  induction l with
  | nil => intro i hi; cases hi
  | cons x xs ih =>
    intro i hi
    rw [List.nodup_cons] at hnd
    cases i with
    | zero => simp [Repository3.indexOf?]
    | succ j =>
      have hj : j < xs.length := by simpa using hi
      have hmem : xs.get ⟨j, hj⟩ ∈ xs := xs.get_mem j hj
      have hne : ¬ x = xs.get ⟨j, hj⟩ := fun hEq => hnd.1 (hEq ▸ hmem)
      simp only [List.get_cons_succ, Repository3.indexOf?, if_neg hne]
      rw [ih hnd.2 j hj]
      rfl

/-! ## The claims -/

/-- C2, counterexample.  The claim says no put becomes durable (visible
to a later open) before a commit is issued.  In the code, `put` writes
straight through to the on-disk borgstore store: after a single `put` on a
fresh repository and no `commit` at all, the durable store already holds
the object and `get` already returns it, so a later open of this state sees
the mutation. -/
theorem put_durable_before_commit :
    run emptyStore [Op.put H0 fooB] = .ok [(bin_to_hex H0, fooB)] ∧
    Repository3.get [(bin_to_hex H0, fooB)] H0 = .ok fooB ∧
    ([(bin_to_hex H0, fooB)] : Store) ≠ emptyStore :=
  ⟨rfl, rfl, by simp [emptyStore]⟩

/-- C2, amended.  Every successful `put` and every successful `delete` is
applied immediately to the durable on-disk store: after a `put` the stored
object is retrievable from the resulting state at once, after a `delete`
(on a well-formed store) the object is gone from the resulting state at
once — both with no commit — and `commit` is a no-op that changes nothing,
so commit is not a durability point at all. -/
theorem mutations_immediately_durable (s t : Store) (id jd : Key) (v : Bytes)
    (s' : Store) (hput : Repository3.put s id v = .ok s')
    (hnd : nodupNames t) (t' : Store) (hdel : Repository3.delete t jd = .ok t') :
    (Repository3.get s' id = .ok v ∧ Repository3.commit s' = s') ∧
    (Repository3.get t' jd = .error (.objectNotFound jd) ∧
      Repository3.commit t' = t') := by
  constructor
  · rw [put_ok_inv s s' id v hput]
    exact ⟨get_of_lookup _ _ _ (lookupName_setName_self _ _ _), rfl⟩
  · rw [delete_ok_inv t t' jd hdel]
    refine ⟨?_, rfl⟩
    unfold Repository3.get
    rw [lookupName_removeName_self _ _ hnd]

/-- C2, amended, witness at `put(H(0), "foo")` on an empty store and
`delete(H(0))` on the one-object store holding `H(0)`. -/
theorem mutations_immediately_durable_witness :
    (Repository3.get [(bin_to_hex H0, fooB)] H0 = .ok fooB ∧
     Repository3.commit [(bin_to_hex H0, fooB)] = [(bin_to_hex H0, fooB)]) ∧
    (Repository3.get ([] : Store) H0 = .error (.objectNotFound H0) ∧
     Repository3.commit ([] : Store) = ([] : Store)) :=
  mutations_immediately_durable emptyStore [(bin_to_hex H0, fooB)] H0 H0 fooB
    [(bin_to_hex H0, fooB)] rfl (by decide) ([] : Store) rfl

/-- C3, counterexample.  The claim says that after `put(k,v)`, `commit`,
`put(k,w)`, `rollback`, `get(k)` returns `v`.  `Repository3` defines no
`rollback` method, so the fourth call raises `AttributeError` and the
sequence never reaches a state; and the state after the first three
operations returns `w` = "bar" (not `v` = "foo") for `get(k)`, because
`put` wrote through immediately and `commit` is a no-op with nothing to
roll back to. -/
theorem rollback_scenario_fails :
    run emptyStore [Op.put H0 fooB, Op.commit, Op.put H0 barB, Op.rollback]
      = .error .attributeError ∧
    run emptyStore [Op.put H0 fooB, Op.commit, Op.put H0 barB]
      = .ok [(bin_to_hex H0, barB)] ∧
    Repository3.get [(bin_to_hex H0, barB)] H0 = .ok barB ∧
    Repository3.get [(bin_to_hex H0, barB)] H0 ≠ .ok fooB := by
  refine ⟨rfl, rfl, rfl, fun h => ?_⟩
  have : barB = fooB := Except.ok.inj h
  simp [barB, fooB] at this

/-- C3, amended.  `Repository3` has no `rollback` method (invoking one
raises `AttributeError`), and changes made since the last commit persist:
after `put(k,v)`, `commit`, `put(k,w)`, a `get(k)` returns `w`. -/
theorem no_rollback_second_put_persists (s s' : Store) (k : Key) (v w : Bytes)
    (h : run s [Op.put k v, Op.commit, Op.put k w] = .ok s') :
    execOp s' Op.rollback = .error .attributeError ∧
    Repository3.get s' k = .ok w := by
  refine ⟨rfl, ?_⟩
  by_cases hv : v.length > MAX_DATA_SIZE
  · have hr : run s [Op.put k v, Op.commit, Op.put k w] = .error .integrityError := by
      simp [run, execOp, Repository3.put, hv]
    rw [hr] at h
    cases h
  · by_cases hw : w.length > MAX_DATA_SIZE
    · have hr : run s [Op.put k v, Op.commit, Op.put k w] = .error .integrityError := by
        simp [run, execOp, Repository3.put, Repository3.commit, hv, hw]
      rw [hr] at h
      cases h
    · have hr : run s [Op.put k v, Op.commit, Op.put k w]
          = .ok (setName (bin_to_hex k) w (setName (bin_to_hex k) v s)) := by
        simp [run, execOp, Repository3.put, Repository3.commit, hv, hw]
      rw [hr] at h
      cases h
      exact get_of_lookup _ _ _ (lookupName_setName_self _ _ _)

/-- C3, amended, witness at `put(H(0),"foo")`, `commit`,
`put(H(0),"bar")` on an empty store. -/
theorem no_rollback_second_put_persists_witness :
    execOp [(bin_to_hex H0, barB)] Op.rollback = .error .attributeError ∧
    Repository3.get [(bin_to_hex H0, barB)] H0 = .ok barB :=
  no_rollback_second_put_persists emptyStore [(bin_to_hex H0, barB)] H0 fooB barB rfl

/-- C4.  A `put` whose payload is longer than `MAX_DATA_SIZE` raises an
`IntegrityError`; since it returns by raising before `store.store` is
reached, no successor state exists and nothing is written: the caller is
left with the repository state unchanged. -/
theorem oversized_put_rejected (s : Store) (id : Key) (data : Bytes)
    (h : data.length > MAX_DATA_SIZE) :
    Repository3.put s id data = .error .integrityError := by
  simp [Repository3.put, h]

/-- C4, witness at a payload of length `MAX_DATA_SIZE + 1`. -/
theorem oversized_put_rejected_witness :
    oversized.length > MAX_DATA_SIZE ∧
    Repository3.put emptyStore H0 oversized = .error .integrityError := by
  have hlen : oversized.length > MAX_DATA_SIZE := by
    rw [oversized, List.length_replicate]
    omega
  exact ⟨hlen, oversized_put_rejected emptyStore H0 oversized hlen⟩

/-- C5.  A `delete` of a key that is not present in the repository
(the store holds nothing under its name) raises `ObjectNotFound` carrying
that key; no successor state exists and nothing is written. -/
theorem delete_absent_object_not_found (s : Store) (id : Key)
    (h : lookupName (bin_to_hex id) s = none) :
    Repository3.delete s id = .error (.objectNotFound id) := by
  simp [Repository3.delete, h]

/-- C5, witness at `delete(H(0))` on an empty repository. -/
theorem delete_absent_object_not_found_witness :
    lookupName (bin_to_hex H0) emptyStore = none ∧
    Repository3.delete emptyStore H0 = .error (.objectNotFound H0) :=
  ⟨rfl, delete_absent_object_not_found emptyStore H0 rfl⟩

/-- C6.  For a payload within `MAX_DATA_SIZE`, a `get(k)` after
`put(k, v)` and a `commit` returns exactly the stored byte string `v`. -/
theorem put_commit_get_roundtrip (s : Store) (id : Key) (v : Bytes)
    (hlen : v.length ≤ MAX_DATA_SIZE) (s' : Store)
    (hput : Repository3.put s id v = .ok s') :
    Repository3.get (Repository3.commit s') id = .ok v := by
  rw [put_ok_inv s s' id v hput]
  exact get_of_lookup _ _ _ (lookupName_setName_self _ _ _)

/-- C6, witness at `put(H(0), "foo")` on an empty repository. -/
theorem put_commit_get_roundtrip_witness :
    fooB.length ≤ MAX_DATA_SIZE ∧
    Repository3.get (Repository3.commit [(bin_to_hex H0, fooB)]) H0 = .ok fooB :=
  ⟨by decide,
   put_commit_get_roundtrip emptyStore H0 fooB (by decide) [(bin_to_hex H0, fooB)] rfl⟩

/-- C8.  `check(repair=False)` returns the state unchanged (its body
only logs), and running `check` twice in succession — with any `repair`
flag — yields the same result (`True`, same state) as running it once. -/
theorem check_no_mutation_idempotent (s : Store) (repair : Bool) :
    (Repository3.check s false).2 = s ∧
    Repository3.check (Repository3.check s repair).2 repair
      = Repository3.check s repair :=
  ⟨rfl, rfl⟩

/-- C9.  `list(marker=x)` for a marker `x` equal to no stored id
raises the `ValueError` of `ids.index(marker)` — it does not return an
empty list or a suffix. -/
theorem list_missing_marker_raises (s : Store) (m : Key)
    (h : m ∉ Repository3.repoIds s) :
    Repository3.list s none (some m) = .error .valueError := by
  simp [Repository3.list, (indexOf?_eq_none_iff m _).mpr h]

/-- C9, witness at marker `H(0)` on an empty repository. -/
theorem list_missing_marker_raises_witness :
    H0 ∉ Repository3.repoIds emptyStore ∧
    Repository3.list emptyStore none (some H0) = .error .valueError :=
  ⟨by simp [Repository3.repoIds, emptyStore, storeNames],
   list_missing_marker_raises emptyStore H0
     (by simp [Repository3.repoIds, emptyStore, storeNames])⟩

/-! ## C1: keys retrievable after a run -/

/-- Invariant for `run`: assuming the store has pairwise distinct names and
the keys currently retrievable are exactly `acc`, after any successful run
the names are still distinct and the keys retrievable are exactly the keys
of `acc` that were "put and not subsequently deleted" plus those added that
way by the run. -/
theorem run_keys_invariant (ops : List Op) :
    ∀ (s s' : Store) (acc : List Key),
      nodupNames s →
      (∀ id : Key, (lookupName (bin_to_hex id) s).isSome ↔ id ∈ acc) →
      run s ops = .ok s' →
      nodupNames s' ∧
      ∀ id : Key, (lookupName (bin_to_hex id) s').isSome ↔ id ∈ putNotDeleted acc ops := by
  induction ops with
  | nil =>
    intro s s' acc hnd hacc hrun
    cases hrun
    exact ⟨hnd, hacc⟩
  | cons op ops ih =>
    intro s s' acc hnd hacc hrun
    cases op with
    | put id data =>
      by_cases hsz : data.length > MAX_DATA_SIZE
      · rw [run, execOp, Repository3.put, if_pos hsz] at hrun
        cases hrun
      · rw [run, execOp, put_ok s id data hsz] at hrun
        simp only [putNotDeleted]
        refine ih _ s' _ (nodupNames_setName _ _ _ hnd) ?_ hrun
        intro id'
        by_cases hid : id' = id
        · subst hid
          simp only [lookupName_setName_self, Option.isSome_some, true_iff]
          by_cases hmem : id' ∈ acc <;> simp [hmem]
        · rw [lookupName_setName_ne _ _ _ _
            (fun hEq => hid (bin_to_hex_injective hEq))]
          rw [hacc id']
          by_cases hmem : id ∈ acc
          · simp [hmem]
          · simp [hmem, hid]
    | delete id =>
      rw [run, execOp, Repository3.delete] at hrun
      cases hl : lookupName (bin_to_hex id) s with
      | none => rw [hl] at hrun; cases hrun
      | some v =>
        rw [hl] at hrun
        simp only [putNotDeleted]
        refine ih _ s' _ (nodupNames_removeName _ _ hnd) ?_ hrun
        intro id'
        by_cases hid : id' = id
        · subst hid
          rw [lookupName_removeName_self _ _ hnd]
          simp
        · rw [lookupName_removeName_ne _ _ _
            (fun hEq => hid (bin_to_hex_injective hEq))]
          rw [hacc id']
          simp [List.mem_filter, hid]
    | commit =>
      rw [run, execOp] at hrun
      simp only [putNotDeleted]
      exact ih _ s' _ hnd hacc hrun
    | rollback =>
      rw [run, execOp] at hrun
      cases hrun

/-- C1.  For every sequence of put/delete/commit operations run from an
empty repository, after a commit the keys on which `get` succeeds are
exactly those that were put and not subsequently deleted in the sequence;
`get` on any other key fails with `ObjectNotFound` carrying that key.
(A run containing a `rollback` never yields a state, since `Repository3`
has no such method, so successful runs consist of put/delete/commit only.) -/
theorem retrievable_keys_after_commit (ops : List Op) (s' : Store)
    (hrun : run emptyStore ops = .ok s')
    (hlast : ops.getLast? = some Op.commit) :
    ∀ id : Key,
      ((∃ v, Repository3.get s' id = .ok v) ↔ id ∈ putNotDeleted [] ops) ∧
      (id ∉ putNotDeleted [] ops →
        Repository3.get s' id = .error (.objectNotFound id)) := by
  have hinv := run_keys_invariant ops emptyStore s' []
    (by simp [nodupNames, storeNames, emptyStore])
    (by intro id; simp [emptyStore, lookupName])
    hrun
  intro id
  have hiff := hinv.2 id
  constructor
  · rw [← hiff]
    unfold Repository3.get
    cases hl : lookupName (bin_to_hex id) s' <;> simp [hl]
  · intro hnot
    rw [← hiff] at hnot
    unfold Repository3.get
    cases hl : lookupName (bin_to_hex id) s' with
    | none => rfl
    | some v => rw [hl] at hnot; simp at hnot

/-- C1, witness at the run `put(H(0),"foo")`, `put(H(0),"bar")` (a
supersede), `delete(H(0))`, `put(H(0),"foo")`, `commit` — `H(0)` was put
and not subsequently deleted, so `get(H(0))` succeeds. -/
theorem retrievable_keys_after_commit_witness :
    (∃ v, Repository3.get [(bin_to_hex H0, fooB)] H0 = .ok v) ↔
      H0 ∈ putNotDeleted []
        [Op.put H0 fooB, Op.put H0 barB, Op.delete H0, Op.put H0 fooB, Op.commit] :=
  (retrievable_keys_after_commit
    [Op.put H0 fooB, Op.put H0 barB, Op.delete H0, Op.put H0 fooB, Op.commit]
    [(bin_to_hex H0, fooB)] rfl rfl H0).1

/-! ## C7 and C10: listing and scanning -/

/-- In a well-formed store the listed ids are pairwise distinct. -/
theorem repoIds_nodup (s : Store) (hnd : nodupNames s) (hev : evenNames s) :
    (Repository3.repoIds s).Nodup :=
  List.Nodup.map_on
    (fun n hn m hm hEq => hex_to_bin_injOn_even n m (hev n hn) (hev m hm) hEq) hnd

/-- C7.  On an unchanged repository the ids listed are a fixed
function of the store (`repoIds`), in a fixed order — the embedding is
deterministic, so two `list()` calls return the same ids in the same
order — and for every position `i` of that order, `list(marker=ids[i])`
returns exactly the suffix strictly after position `i`. -/
theorem list_stable_and_marker_suffix (s : Store)
    (hnd : nodupNames s) (hev : evenNames s) :
    Repository3.list s none none = .ok (Repository3.repoIds s) ∧
    ∀ (i : Nat) (hi : i < (Repository3.repoIds s).length),
      Repository3.list s none (some ((Repository3.repoIds s).get ⟨i, hi⟩))
        = .ok ((Repository3.repoIds s).drop (i + 1)) := by
  constructor
  · rfl
  · intro i hi
    have hidx := indexOf?_get (Repository3.repoIds s) (repoIds_nodup s hnd hev) i hi
    simp only [List.get_eq_getElem] at hidx
    simp [Repository3.list, hidx, Repository3.truncateTo]

/-- C7, witness on a one-object store, at position 0 of the order. -/
theorem list_stable_and_marker_suffix_witness :
    Repository3.list oneObjStore none none = .ok (Repository3.repoIds oneObjStore) ∧
    Repository3.list oneObjStore none
        (some ((Repository3.repoIds oneObjStore).get ⟨0, by decide⟩))
      = .ok ((Repository3.repoIds oneObjStore).drop 1) := by
  have h := list_stable_and_marker_suffix oneObjStore (by decide) (by decide)
  exact ⟨h.1, h.2 0 (by decide)⟩

/-- Calling `list(limit, marker)` at the marker standing after the first `i` ids
(`None` for `i = 0`, else the `i`-th id) returns the next `limit` ids. -/
theorem list_at_take_getLast (s : Store) (hnd : nodupNames s) (hev : evenNames s)
    (l : Nat) (i : Nat) (hi : i ≤ (Repository3.repoIds s).length) :
    Repository3.list s (some l) (((Repository3.repoIds s).take i).getLast?)
      = .ok (((Repository3.repoIds s).drop i).take l) := by
  cases i with
  | zero => simp [Repository3.list, Repository3.truncateTo]
  | succ j =>
    have hj : j < (Repository3.repoIds s).length := by omega
    have htake : (Repository3.repoIds s).take (j + 1)
        = (Repository3.repoIds s).take j ++ [(Repository3.repoIds s).get ⟨j, hj⟩] := by
      rw [List.take_succ, List.getElem?_eq_getElem hj]
      rfl
    have hlast : ((Repository3.repoIds s).take (j + 1)).getLast?
        = some ((Repository3.repoIds s).get ⟨j, hj⟩) := by
      rw [htake]
      exact List.getLast?_concat _
    rw [hlast]
    have hidx := indexOf?_get (Repository3.repoIds s) (repoIds_nodup s hnd hev) j hj
    simp only [List.get_eq_getElem] at hidx
    simp [Repository3.list, hidx, Repository3.truncateTo]

/-- One `scan` step from the marker after the first `i` ids. -/
theorem scan_at_take_getLast (s : Store) (hnd : nodupNames s) (hev : evenNames s)
    (l : Nat) (i : Nat) (hi : i ≤ (Repository3.repoIds s).length) :
    Repository3.scan s (some l) (((Repository3.repoIds s).take i).getLast?)
      = .ok (((Repository3.repoIds s).drop i).take l,
             (((Repository3.repoIds s).drop i).take l).getLast?) := by
  unfold Repository3.scan
  rw [list_at_take_getLast s hnd hev l i hi]

/-- Chaining `scan` with a positive limit from the marker after the first
`i` ids enumerates exactly the remaining ids, given enough iterations. -/
theorem scanChain_at_take_getLast (s : Store) (hnd : nodupNames s)
    (hev : evenNames s) (l : Nat) (hl : 1 ≤ l) :
    ∀ (fuel i : Nat), i ≤ (Repository3.repoIds s).length →
      (Repository3.repoIds s).length - i ≤ fuel →
      scanChain s (some l) (((Repository3.repoIds s).take i).getLast?) fuel
        = (Repository3.repoIds s).drop i := by
  intro fuel
  induction fuel with
  | zero =>
    intro i hi hfuel
    have hlen : i = (Repository3.repoIds s).length := by omega
    rw [hlen, List.drop_length]
    rfl
  | succ fuel ih =>
    intro i hi hfuel
    have hscan := scan_at_take_getLast s hnd hev l i hi
    rw [scanChain, hscan]
    dsimp only
    by_cases hempty : (Repository3.repoIds s).drop i = []
    · have hil : i = (Repository3.repoIds s).length := by
        have := List.drop_eq_nil_iff.mp hempty
        omega
      simp [hempty]
    · have hchunk : ((Repository3.repoIds s).drop i).take l ≠ [] := by
        cases hld : (Repository3.repoIds s).drop i with
        | nil => exact absurd hld hempty
        | cons a as =>
          cases l with
          | zero => omega
          | succ l' => simp [hld]
      rw [if_neg (by simpa [List.isEmpty_iff] using hchunk)]
      have hlt : i < (Repository3.repoIds s).length := by
        rcases Nat.lt_or_ge i (Repository3.repoIds s).length with h | h
        · exact h
        · exact absurd (List.drop_eq_nil_iff.mpr h) hempty
      by_cases hend : (Repository3.repoIds s).length ≤ i + l
      · -- last chunk: the take collects the whole remaining suffix
        have htake_all : ((Repository3.repoIds s).drop i).take l
            = (Repository3.repoIds s).drop i := by
          apply List.take_of_length_le
          rw [List.length_drop]
          omega
        rw [htake_all]
        have hstate : ((Repository3.repoIds s).drop i).getLast?
            = (((Repository3.repoIds s).take
                (Repository3.repoIds s).length).getLast?) := by
          rw [List.take_length]
          conv_rhs => rw [← List.take_append_drop i (Repository3.repoIds s)]
          rw [List.getLast?_append_of_ne_nil _ hempty]
        rw [hstate,
          ih (Repository3.repoIds s).length (Nat.le_refl _) (by omega),
          List.drop_length, List.append_nil]
      · -- middle chunk: advance by exactly l positions
        push_neg at hend
        have htake_add : (Repository3.repoIds s).take (i + l)
            = (Repository3.repoIds s).take i
              ++ ((Repository3.repoIds s).drop i).take l :=
          List.take_add _ i l
        have hstate : (((Repository3.repoIds s).drop i).take l).getLast?
            = ((Repository3.repoIds s).take (i + l)).getLast? := by
          rw [htake_add, List.getLast?_append_of_ne_nil _ hchunk]
        rw [hstate, ih (i + l) (by omega) (by omega)]
        rw [← List.drop_drop]
        conv_rhs => rw [← List.take_append_drop l ((Repository3.repoIds s).drop i)]

/-- C10.  `scan(limit, state)` returns exactly the pair
`(list(limit, marker=state), s)` where `s` is the last element of that
list (`None` when it is empty) — including error propagation — and hence,
on a well-formed store, repeatedly chaining the returned state with a
positive limit enumerates all the repository's ids in list order without
repetition (the chained ids are exactly `repoIds`, whose elements are
pairwise distinct). -/
theorem scan_refines_list (s : Store) (hnd : nodupNames s) (hev : evenNames s) :
    (∀ (limit : Option Nat) (state : Option Key),
      Repository3.scan s limit state
        = (Repository3.list s limit state).map (fun ids => (ids, ids.getLast?))) ∧
    (∀ l : Nat, 1 ≤ l → ∀ fuel : Nat, (Repository3.repoIds s).length ≤ fuel →
      scanChain s (some l) none fuel = Repository3.repoIds s) ∧
    (Repository3.repoIds s).Nodup := by
  refine ⟨?_, ?_, repoIds_nodup s hnd hev⟩
  · intro limit state
    unfold Repository3.scan
    cases Repository3.list s limit state <;> rfl
  · intro l hl fuel hfuel
    have h := scanChain_at_take_getLast s hnd hev l hl fuel 0 (Nat.zero_le _)
      (by omega)
    simpa using h

/-- C10, witness on a one-object store with limit 1 and two
iterations. -/
theorem scan_refines_list_witness :
    (Repository3.scan oneObjStore (some 1) none
      = (Repository3.list oneObjStore (some 1) none).map
          (fun ids => (ids, ids.getLast?))) ∧
    scanChain oneObjStore (some 1) none 1 = Repository3.repoIds oneObjStore := by
  have h := scan_refines_list oneObjStore (by decide) (by decide)
  exact ⟨h.1 (some 1) none, h.2.1 1 (by omega) 1 (by decide)⟩
